import Mathlib

/-!
Shallow embedding of the PybberLink acoustic-modem core
(`src/pybberlink/main.py`).

Byte sequences are `List ℕ` (each entry meant `< 256`), exact rational
arithmetic (`ℚ`) replaces Python floats where values matter, and the two
external collaborators declared out of scope by the design (the
Reed-Solomon codec from the `reedsolo` package and the spectral pipeline
`np.hanning` / `np.fft.rfft` / `np.abs` from numpy) are passed in as
explicit parameters: an `RSCodec` structure, a sample-generation function
`sinw f t` standing for `np.sin(2 * np.pi * f * t)`, and a magnitude
function `mag block bin` standing for
`np.abs(np.fft.rfft(block * np.hanning(symbol_duration)))[bin]`.
Everything else is translated line by line from the source.
-/

namespace Pybberlink

/-- Module-level protocol constant `F0_normal = 1875.0` (Hz). -/
def F0_normal : ℚ := 1875

/-- Module-level protocol constant `F0_ultra = 15000.0` (Hz). -/
def F0_ultra : ℚ := 15000

/-- Module-level protocol constant `dF = 46.875` (Hz). -/
def dF : ℚ := 375 / 8

/-- Module-level protocol constant `tones_per_nibble = 16`. -/
def tones_per_nibble : ℕ := 16

/-- Module-level protocol constant `parallel_tones = 6`. -/
def parallel_tones : ℕ := 6

/-- Module-level audio constant `sample_rate = 48000`. -/
def sample_rate : ℕ := 48000

/-- Module-level audio constant `symbol_duration = 1024`. -/
def symbol_duration : ℕ := 1024

/-- Module-level constant `rs_ecc_bytes = 4`. -/
def rs_ecc_bytes : ℕ := 4

/-- Embeds `get_freq_table(ultrasonic)`: the 6 x 16 lookup table of tone
frequencies, `table[band, nibble] = base_freq + (band*16 + nibble) * dF`,
embedded as a total function of the two indices. -/
def get_freq_table (ultrasonic : Bool) : ℕ → ℕ → ℚ := fun band nibble =>
  (if ultrasonic then F0_ultra else F0_normal)
    + (band * tones_per_nibble + nibble) * dF

/-- Rounding rule of `np.round` on an exact rational: round half to even, as numpy does. -/
def npRound (q : ℚ) : ℤ :=
  if q - ⌊q⌋ < 1 / 2 then ⌊q⌋
  else if 1 / 2 < q - ⌊q⌋ then ⌊q⌋ + 1
  else if ⌊q⌋ % 2 = 0 then ⌊q⌋ else ⌊q⌋ + 1

/-- Embeds `get_bin_table(freq_table)`: FFT bin index per slot,
`np.round(freq_table * symbol_duration / sample_rate).astype(int)`.
The Python function body reads the module-level globals `symbol_duration`
and `sample_rate`, not any caller's local parameters. -/
def get_bin_table (freq_table : ℕ → ℕ → ℚ) : ℕ → ℕ → ℤ := fun band nibble =>
  npRound (freq_table band nibble * symbol_duration / sample_rate)

/-- The generalised bin-table formula `round(freq * sd / sr)` written with
explicit sample-rate and symbol-duration arguments. It follows the spec's
words (BinTable: `round(freq * symbolDuration / sampleRate)`) and is used
to compare `get_bin_table`'s global-capturing behaviour against the
per-call parameters. -/
def bin_table_with (sr sd : ℕ) (freq_table : ℕ → ℕ → ℚ) : ℕ → ℕ → ℤ :=
  fun band nibble => npRound (freq_table band nibble * sd / sr)

/-- The external Reed-Solomon collaborator `reedsolo.RSCodec(rs_ecc_bytes)`:
`enc` is `rs.encode`, `dec` is `rs.decode(...)[0]` with `none` standing for
a raised `reedsolo.ReedSolomonError`. -/
structure RSCodec where
  enc : List ℕ → List ℕ
  dec : List ℕ → Option (List ℕ)

/-- Bytes of `text.encode('utf-8')` as a list of naturals. -/
def utf8Bytes (s : String) : List ℕ := s.toUTF8.toList.map (fun b => b.toNat)

/-- The three-bytes-to-six-nibbles split of the modulator:
`[(b1 >> 4) & 0xF, b1 & 0xF, (b2 >> 4) & 0xF, b2 & 0xF, (b3 >> 4) & 0xF, b3 & 0xF]`. -/
def nibbles_of_chunk (b1 b2 b3 : ℕ) : List ℕ :=
  [(b1 >>> 4) &&& 0xF, b1 &&& 0xF,
   (b2 >>> 4) &&& 0xF, b2 &&& 0xF,
   (b3 >>> 4) &&& 0xF, b3 &&& 0xF]

/-- The modulator's loop `for i in range(0, len(data_with_ecc), 3)` with the
unpacking `b1, b2, b3 = chunk`: the frame is consumed three bytes at a
time (the framer guarantees the length is a multiple of 3). -/
def chunks3 : List ℕ → List (ℕ × ℕ × ℕ)
  | b1 :: b2 :: b3 :: rest => (b1, b2, b3) :: chunks3 rest
  | _ => []

/-- The per-chunk frequency list
`[freq_table[band, nibbles[band]] for band in range(parallel_tones)]`. -/
def chunk_freqs (freq_table : ℕ → ℕ → ℚ) (c : ℕ × ℕ × ℕ) : List ℚ :=
  (List.range parallel_tones).map fun band =>
    freq_table band ((nibbles_of_chunk c.1 c.2.1 c.2.2).getD band 0)

/-- One symbol's waveform: `symbol_duration` samples at times
`t_n = n / sample_rate` (this is `np.linspace(0, sd/sr, sd, endpoint=False)`),
each sample the sum over the six bands of `sinw f t`, where `sinw` is the
external sample generator standing for `np.sin(2*np.pi*f*t)`. -/
def symbol_wave {α : Type} [AddCommMonoid α] (sinw : ℚ → ℚ → α)
    (sr sd : ℕ) (freqs : List ℚ) : List α :=
  (List.range sd).map fun (n : ℕ) => (freqs.map fun f => sinw f ((n : ℚ) / (sr : ℚ))).sum

/-- The triple returned by `encode_text_to_signal`. -/
structure EncodeResult (α : Type) where
  full_signal : List α
  pad_len : ℕ
  rs_encoded_length : ℕ

/-- Embeds `encode_text_to_signal(text, ultrasonic, sample_rate, symbol_duration,
rs_ecc_bytes)`. `rs` abstracts the `reedsolo.RSCodec(rs_ecc_bytes)` object
constructed in the body; `sinw` abstracts `np.sin` as described above. -/
def encode_text_to_signal {α : Type} [AddCommMonoid α] (sinw : ℚ → ℚ → α)
    (rs : RSCodec) (text : String) (ultrasonic : Bool) (sr sd : ℕ) :
    EncodeResult α :=
  let data := utf8Bytes text
  let data_with_ecc := rs.enc data
  let pad_len := (3 - data_with_ecc.length % 3) % 3
  let padded := data_with_ecc ++ List.replicate pad_len 0
  let freq_table := get_freq_table ultrasonic
  let full_signal :=
    ((chunks3 padded).map fun c => symbol_wave sinw sr sd (chunk_freqs freq_table c)).flatten
  ⟨full_signal, pad_len, padded.length⟩

/-- Scan helper of `np.argmax`: walk the remaining list with current champion index
`best`, champion value `bestv`, and next index `i`; the champion is replaced
only on a strictly larger value, so the first maximum wins. -/
def argmax_from (best : ℕ) (bestv : ℚ) (i : ℕ) : List ℚ → ℕ
  | [] => best
  | x :: xs => if bestv < x then argmax_from i x (i + 1) xs
               else argmax_from best bestv (i + 1) xs

/-- Embeds `np.argmax` over one axis slice: index of the first maximal entry. -/
def np_argmax : List ℚ → ℕ
  | [] => 0
  | x :: xs => argmax_from 0 x 1 xs

/-- Embeds `signal[:n_symbols*symbol_duration].reshape(n_symbols, symbol_duration)`:
cut `n` consecutive blocks of `sd` samples off the front of the signal. -/
def splitBlocks {α : Type} (sd : ℕ) : ℕ → List α → List (List α)
  | 0, _ => []
  | n + 1, l => l.take sd :: splitBlocks sd n (l.drop sd)

/-- Length of the spectrum delivered by `np.fft.rfft` on an axis of length
`sd`: this is `magnitudes.shape[1] = sd // 2 + 1`. -/
def rfft_len (sd : ℕ) : ℕ := sd / 2 + 1

/-- The bin table used inside `decode_signal_to_text`. The decoder's local
parameters `sample_rate = sr` and `symbol_duration = sd` are in scope at the
call site, but the body is `get_bin_table(get_freq_table(ultrasonic))` and
`get_bin_table` reads only the module globals. -/
def decode_bins (ultrasonic : Bool) (sr sd : ℕ) : ℕ → ℕ → ℤ :=
  get_bin_table (get_freq_table ultrasonic)

/-- The 16 candidate magnitudes for one band of one block:
`candidate_mags[:, nibble] = magnitudes[:, bin]` when `bin` is inside the
spectrum (`bin < magnitudes.shape[1] = L`), else `0.0`. `mag block i` is the
external magnitude spectrum `np.abs(np.fft.rfft(block * np.hanning(sd)))[i]`
of the Hann-windowed block. -/
def candidate_mags {α : Type} (mag : List α → ℕ → ℚ) (bt : ℕ → ℕ → ℤ)
    (L : ℕ) (block : List α) (band : ℕ) : List ℚ :=
  (List.range tones_per_nibble).map fun nibble =>
    if bt band nibble < (L : ℤ) then mag block (bt band nibble).toNat else 0

/-- The detected nibble for one band of one block:
`np.argmax(candidate_mags, axis=1)` restricted to that block. -/
def detect_nibble {α : Type} (mag : List α → ℕ → ℚ) (bt : ℕ → ℕ → ℤ)
    (L : ℕ) (block : List α) (band : ℕ) : ℕ :=
  np_argmax (candidate_mags mag bt L block band)

/-- One row of `nibble_matrix`: the six detected nibbles of one block. -/
def detect_row {α : Type} (mag : List α → ℕ → ℚ) (bt : ℕ → ℕ → ℤ)
    (L : ℕ) (block : List α) : List ℕ :=
  (List.range parallel_tones).map fun band => detect_nibble mag bt L block band

/-- Byte reassembly of one row:
`[(row[0] << 4) | row[1], (row[2] << 4) | row[3], (row[4] << 4) | row[5]]`. -/
def row_bytes (row : List ℕ) : List ℕ :=
  [(row.getD 0 0) <<< 4 ||| row.getD 1 0,
   (row.getD 2 0) <<< 4 ||| row.getD 3 0,
   (row.getD 4 0) <<< 4 ||| row.getD 5 0]

/-- The raw `reconstructed` bytearray: three bytes per block, all blocks
concatenated in order. -/
def reconstruct {α : Type} (mag : List α → ℕ → ℚ) (bt : ℕ → ℕ → ℤ)
    (L : ℕ) (blocks : List (List α)) : List ℕ :=
  (blocks.map fun block => row_bytes (detect_row mag bt L block)).flatten

/-- The byte buffer handed to `rs.decode`: reshape, detect, reassemble, then
`reconstructed[:-pad_bytes]` when `pad_bytes` is nonzero, then truncate to
`rs_encoded_length` when that is given and the buffer is longer. -/
def pre_rs_buffer {α : Type} (mag : List α → ℕ → ℚ) (signal : List α)
    (pad_bytes : ℕ) (rs_encoded_length : Option ℕ) (ultrasonic : Bool)
    (sr sd : ℕ) : List ℕ :=
  let n_symbols := signal.length / sd
  let symbols := splitBlocks sd n_symbols signal
  let reconstructed := reconstruct mag (decode_bins ultrasonic sr sd) (rfft_len sd) symbols
  let afterPad := if pad_bytes ≠ 0 then reconstructed.take (reconstructed.length - pad_bytes)
                  else reconstructed
  match rs_encoded_length with
  | some len => if len < afterPad.length then afterPad.take len else afterPad
  | none => afterPad

/-- Embeds `bytes.decode('utf-8', errors='ignore')`: decode the byte list to the
list of code points of the resulting string, skipping ill-formed sequences
byte-group-wise the way CPython's lossy UTF-8 decoder does. -/
def utf8DecodeIgnore : List ℕ → List ℕ
  | [] => []
  | b :: rest =>
    if b < 0x80 then b :: utf8DecodeIgnore rest
    else if 0xC2 ≤ b ∧ b ≤ 0xDF then
      match rest with
      | [] => []
      | c :: rest2 =>
        if 0x80 ≤ c ∧ c ≤ 0xBF then
          ((b - 0xC0) * 64 + (c - 0x80)) :: utf8DecodeIgnore rest2
        else utf8DecodeIgnore (c :: rest2)
    else if 0xE0 ≤ b ∧ b ≤ 0xEF then
      match rest with
      | [] => []
      | c :: rest2 =>
        if (b = 0xE0 → 0xA0 ≤ c) ∧ (b = 0xED → c ≤ 0x9F) ∧ 0x80 ≤ c ∧ c ≤ 0xBF then
          match rest2 with
          | [] => []
          | d :: rest3 =>
            if 0x80 ≤ d ∧ d ≤ 0xBF then
              ((b - 0xE0) * 4096 + (c - 0x80) * 64 + (d - 0x80)) :: utf8DecodeIgnore rest3
            else utf8DecodeIgnore (d :: rest3)
        else utf8DecodeIgnore (c :: rest2)
    else if 0xF0 ≤ b ∧ b ≤ 0xF4 then
      match rest with
      | [] => []
      | c :: rest2 =>
        if (b = 0xF0 → 0x90 ≤ c) ∧ (b = 0xF4 → c ≤ 0x8F) ∧ 0x80 ≤ c ∧ c ≤ 0xBF then
          match rest2 with
          | [] => []
          | d :: rest3 =>
            if 0x80 ≤ d ∧ d ≤ 0xBF then
              match rest3 with
              | [] => []
              | e :: rest4 =>
                if 0x80 ≤ e ∧ e ≤ 0xBF then
                  ((b - 0xF0) * 262144 + (c - 0x80) * 4096 + (d - 0x80) * 64 + (e - 0x80))
                    :: utf8DecodeIgnore rest4
                else utf8DecodeIgnore (e :: rest4)
            else utf8DecodeIgnore (d :: rest3)
        else utf8DecodeIgnore (c :: rest2)
    else utf8DecodeIgnore rest
termination_by l => l.length
decreasing_by all_goals simp +arith [List.length_cons]

/-- Embeds `decode_signal_to_text(signal, pad_bytes, rs_encoded_length, ultrasonic,
sample_rate, symbol_duration, rs_ecc_bytes)`: the full demodulation path.
On a `ReedSolomonError` (`rs.dec _ = none`) the source prints a message and
falls back to the raw buffer; the printed message is an I/O side effect
outside the returned value, so the embedding keeps only the fallback. The
result is the returned string as its list of code points. -/
def decode_signal_to_text {α : Type} (mag : List α → ℕ → ℚ) (rs : RSCodec)
    (signal : List α) (pad_bytes : ℕ) (rs_encoded_length : Option ℕ)
    (ultrasonic : Bool) (sr sd : ℕ) : List ℕ :=
  let reconstructed := pre_rs_buffer mag signal pad_bytes rs_encoded_length ultrasonic sr sd
  let decoded_data := match rs.dec reconstructed with
    | some d => d
    | none => reconstructed
  utf8DecodeIgnore decoded_data

/-! Helper lemmas. -/

/-- Evaluating `np.round` at an exact integer value gives that integer. -/
lemma npRound_intCast (z : ℤ) : npRound (z : ℚ) = z := by
  simp [npRound]

/-- Concrete value of the bin table, both modes: `40 + 16*band + nibble` in
audible mode and `320 + 16*band + nibble` in ultrasonic mode (every tone
falls exactly on a bin, `dF * symbol_duration / sample_rate = 1`). -/
lemma bin_table_formula (u : Bool) (b n : ℕ) :
    get_bin_table (get_freq_table u) b n = (if u then 320 else 40) + 16 * b + n := by
  have harg : get_freq_table u b n * (symbol_duration : ℚ) / (sample_rate : ℚ)
      = (((if u then 320 else 40) + 16 * b + n : ℤ) : ℚ) := by
    cases u <;>
      · simp only [get_freq_table, F0_ultra, F0_normal, dF, tones_per_nibble,
          symbol_duration, sample_rate, if_true, if_false, Bool.true_eq_false,
          Bool.false_eq_true]
        push_cast
        ring
  rw [get_bin_table, harg, npRound_intCast]

/-- Value of `getD` on a mapped range at an in-range index. -/
lemma getD_range_map {β : Type} (d : β) (n : ℕ) (f : ℕ → β) (j : ℕ) (h : j < n) :
    ((List.range n).map f).getD j d = f j := by
  simp [List.getD_eq_getElem?_getD, List.getElem?_map, List.getElem?_range, h]

/-- Invariant of the `np.argmax` scan: either the incoming champion
survives and dominates the rest of the list, or the result points at the
first strict maximum of the rest. -/
lemma argmax_from_spec : ∀ (xs : List ℚ) (best i : ℕ) (bestv : ℚ),
    (argmax_from best bestv i xs = best ∧ ∀ k, k < xs.length → xs.getD k 0 ≤ bestv)
    ∨ ∃ k, k < xs.length ∧ argmax_from best bestv i xs = i + k ∧ bestv < xs.getD k 0
        ∧ (∀ m, m < k → xs.getD m 0 < xs.getD k 0)
        ∧ (∀ m, m < xs.length → xs.getD m 0 ≤ xs.getD k 0) := by
  intro xs
  induction xs with
  | nil =>
    intro best i bestv
    exact Or.inl ⟨rfl, fun k hk => absurd hk (by simp)⟩
  | cons x xs ih =>
    intro best i bestv
    by_cases h : bestv < x
    · simp only [argmax_from, if_pos h]
      rcases ih i (i + 1) x with ⟨heq, hall⟩ | ⟨k, hk, heq, hgt, hfirst, hmax⟩
      · refine Or.inr ⟨0, by simp, by simpa using heq, by simpa using h,
          fun m hm => absurd hm (Nat.not_lt_zero m), ?_⟩
        intro m hm
        cases m with
        | zero => simp
        | succ m =>
          simp only [List.getD_cons_succ, List.getD_cons_zero]
          exact hall m (by simpa using hm)
      · refine Or.inr ⟨k + 1, by simpa using hk, by rw [heq]; omega,
          by simpa using h.trans hgt, ?_, ?_⟩
        · intro m hm
          cases m with
          | zero => simpa using hgt
          | succ m =>
            simp only [List.getD_cons_succ]
            exact hfirst m (by omega)
        · intro m hm
          cases m with
          | zero => simpa using le_of_lt hgt
          | succ m =>
            simp only [List.getD_cons_succ]
            exact hmax m (by simpa using hm)
    · simp only [argmax_from, if_neg h]
      rcases ih best (i + 1) bestv with ⟨heq, hall⟩ | ⟨k, hk, heq, hgt, hfirst, hmax⟩
      · refine Or.inl ⟨heq, ?_⟩
        intro k hk
        cases k with
        | zero => simpa using le_of_not_lt h
        | succ k =>
          simp only [List.getD_cons_succ]
          exact hall k (by simpa using hk)
      · refine Or.inr ⟨k + 1, by simpa using hk, by rw [heq]; omega,
          by simpa using hgt, ?_, ?_⟩
        · intro m hm
          cases m with
          | zero =>
            simp only [List.getD_cons_succ, List.getD_cons_zero]
            exact lt_of_le_of_lt (le_of_not_lt h) hgt
          | succ m =>
            simp only [List.getD_cons_succ]
            exact hfirst m (by omega)
        · intro m hm
          cases m with
          | zero =>
            simp only [List.getD_cons_succ, List.getD_cons_zero]
            exact le_of_lt (lt_of_le_of_lt (le_of_not_lt h) hgt)
          | succ m =>
            simp only [List.getD_cons_succ]
            exact hmax m (by simpa using hm)

/-- Result of `np.argmax` is an index inside the list. -/
lemma np_argmax_lt_length (l : List ℚ) (h : l ≠ []) : np_argmax l < l.length := by
  match l with
  | x :: xs =>
    simp only [np_argmax]
    rcases argmax_from_spec xs 0 1 x with ⟨heq, _⟩ | ⟨k, hk, heq, _, _, _⟩
    · rw [heq]; simp
    · rw [heq]; simp; omega

/-- Result of `np.argmax` is an index of a maximal entry. -/
lemma np_argmax_is_max (l : List ℚ) (j : ℕ) (hj : j < l.length) :
    l.getD j 0 ≤ l.getD (np_argmax l) 0 := by
  match l with
  | x :: xs =>
    simp only [np_argmax]
    rcases argmax_from_spec xs 0 1 x with ⟨heq, hall⟩ | ⟨k, hk, heq, hgt, _, hmax⟩
    · rw [heq]
      cases j with
      | zero => simp
      | succ j =>
        simp only [List.getD_cons_succ, List.getD_cons_zero]
        exact hall j (by simpa using hj)
    · rw [heq]
      simp only [show 1 + k = k + 1 from by omega, List.getD_cons_succ]
      cases j with
      | zero => simpa using le_of_lt hgt
      | succ j =>
        simp only [List.getD_cons_succ]
        exact hmax j (by simpa using hj)

/-- Entries strictly before the `np.argmax` index are strictly below the
maximum: ties are broken by the lowest index. -/
lemma np_argmax_first (l : List ℚ) (j : ℕ) (hj : j < np_argmax l) :
    l.getD j 0 < l.getD (np_argmax l) 0 := by
  match l with
  | [] => simp [np_argmax] at hj
  | x :: xs =>
    simp only [np_argmax] at hj ⊢
    rcases argmax_from_spec xs 0 1 x with ⟨heq, _⟩ | ⟨k, hk, heq, hgt, hfirst, _⟩
    · rw [heq] at hj; omega
    · rw [heq] at hj ⊢
      simp only [show 1 + k = k + 1 from by omega, List.getD_cons_succ]
      cases j with
      | zero => simpa using hgt
      | succ j =>
        simp only [List.getD_cons_succ]
        exact hfirst j (by omega)

/-- The frame is consumed in exactly `len / 3` chunks of three bytes. -/
lemma chunks3_length : ∀ l : List ℕ, (chunks3 l).length = l.length / 3
  | [] => by simp [chunks3]
  | [_] => by simp [chunks3]
  | [_, _] => by simp [chunks3]
  | _ :: _ :: _ :: rest => by
    simp only [chunks3, List.length_cons, chunks3_length rest]
    omega

/-- Reshaping yields exactly fuel many blocks. -/
lemma splitBlocks_length {α : Type} (sd : ℕ) :
    ∀ (n : ℕ) (l : List α), (splitBlocks sd n l).length = n := by
  intro n
  induction n with
  | zero => intro l; rfl
  | succ n ih => intro l; simp [splitBlocks, ih]

/-- Reshaping reads only the first `n * sd` samples. -/
lemma splitBlocks_take {α : Type} (sd : ℕ) :
    ∀ (n : ℕ) (l : List α), splitBlocks sd n (l.take (n * sd)) = splitBlocks sd n l := by
  intro n
  induction n with
  | zero => intro l; rfl
  | succ n ih =>
    intro l
    simp only [splitBlocks]
    have h1 : (l.take ((n + 1) * sd)).take sd = l.take sd := by
      rw [List.take_take]
      congr 1
      rw [Nat.succ_mul]
      omega
    have h2 : (l.take ((n + 1) * sd)).drop sd = (l.drop sd).take (n * sd) := by
      rw [List.drop_take]
      congr 1
      rw [Nat.succ_mul]
      omega
    rw [h1, h2, ih]

/-! Claim theorems. -/

/-- C4: for the default configuration (baseFrequency 1875.0 or 15000.0,
frequencyStep 46.875, sampleRate 48000, symbolDuration 1024), the bin table
`round(freq * symbol_duration / sample_rate)` assigns pairwise distinct bin
indices to all 96 (band, nibble) pairs, within and across bands, in each
mode. -/
theorem bin_table_pairwise_distinct (u : Bool) (b1 n1 b2 n2 : ℕ)
    (hb1 : b1 < 6) (hn1 : n1 < 16) (hb2 : b2 < 6) (hn2 : n2 < 16)
    (hne : (b1, n1) ≠ (b2, n2)) :
    get_bin_table (get_freq_table u) b1 n1 ≠ get_bin_table (get_freq_table u) b2 n2 := by
  rw [bin_table_formula, bin_table_formula]
  have hne' : ¬(b1 = b2 ∧ n1 = n2) := by
    intro ⟨h1, h2⟩
    exact hne (by rw [h1, h2])
  cases u <;> · simp only [if_true, if_false] at * ; intro h ; omega

/-- C4 witness: bands 0 and 5, nibbles 15 and 0, ultrasonic mode. -/
theorem bin_table_pairwise_distinct_witness :
    (0 < 6 ∧ 15 < 16 ∧ 5 < 6 ∧ 0 < 16 ∧ ((0 : ℕ), (15 : ℕ)) ≠ ((5 : ℕ), (0 : ℕ)))
    ∧ get_bin_table (get_freq_table true) 0 15 ≠ get_bin_table (get_freq_table true) 5 0 :=
  ⟨⟨by omega, by omega, by omega, by omega, by decide⟩,
    bin_table_pairwise_distinct true 0 15 5 0 (by omega) (by omega) (by omega) (by omega)
      (by decide)⟩

set_option maxRecDepth 4096 in
/-- C6: splitting a 3-byte group into 6 nibbles in the modulator's fixed
order and reassembling them as the demodulator does recovers the original
three bytes. -/
theorem nibble_split_reassemble_roundtrip (b1 b2 b3 : ℕ)
    (h1 : b1 < 256) (h2 : b2 < 256) (h3 : b3 < 256) :
    row_bytes (nibbles_of_chunk b1 b2 b3) = [b1, b2, b3] := by
  have e : ∀ b : ℕ, b < 256 → ((b >>> 4) &&& 0xF) <<< 4 ||| (b &&& 0xF) = b := by
    intro b hb
    have : ∀ b : Fin 256, (((b : ℕ) >>> 4) &&& 0xF) <<< 4 ||| ((b : ℕ) &&& 0xF) = b := by
      decide
    exact this ⟨b, hb⟩
  simp only [row_bytes, nibbles_of_chunk, List.getD_cons_zero, List.getD_cons_succ]
  rw [e b1 h1, e b2 h2, e b3 h3]

/-- C6 witness: the bytes of "Hi!". -/
theorem nibble_split_reassemble_roundtrip_witness :
    (72 < 256 ∧ 105 < 256 ∧ 33 < 256)
    ∧ row_bytes (nibbles_of_chunk 72 105 33) = [72, 105, 33] :=
  ⟨⟨by omega, by omega, by omega⟩,
    nibble_split_reassemble_roundtrip 72 105 33 (by omega) (by omega) (by omega)⟩

/-- C7: the frequency table builder is a pure, deterministic function of
the ultrasonic flag and the protocol constants, with
`table[band][nibble] = baseFrequency + (band*nibbleValues + nibble) * frequencyStep`
(baseFrequency 15000 or 1875, nibbleValues 16, frequencyStep 46.875), and
calling it twice with the same flag yields identical matrices. -/
theorem freq_table_formula_and_deterministic (u : Bool) (band nibble : ℕ) :
    get_freq_table u band nibble
        = (if u then 15000 else 1875) + (band * 16 + nibble) * (375 / 8 : ℚ)
      ∧ get_freq_table u = get_freq_table u := by
  refine ⟨?_, rfl⟩
  cases u <;> simp [get_freq_table, F0_ultra, F0_normal, dF, tones_per_nibble]

/-- C9: the bin table used inside `decode_signal_to_text` is computed from
the module-level defaults `sample_rate = 48000` and `symbol_duration = 1024`
(`get_bin_table` reads the globals), not from the call's `sample_rate` and
`symbol_duration` arguments: any two calls compare magnitudes at identical
candidate bin indices, and the decoder's output never depends on its
`sample_rate` argument at all. -/
theorem decode_bin_table_ignores_call_args {α : Type} (u : Bool) (sr sd sr' sd' : ℕ)
    (mag : List α → ℕ → ℚ) (rs : RSCodec) (signal : List α)
    (pad : ℕ) (rsl : Option ℕ) :
    decode_bins u sr sd = decode_bins u sr' sd'
      ∧ decode_bins u sr sd = bin_table_with 48000 1024 (get_freq_table u)
      ∧ decode_signal_to_text mag rs signal pad rsl u sr sd
          = decode_signal_to_text mag rs signal pad rsl u sr' sd := by
  refine ⟨rfl, ?_, rfl⟩
  funext band nibble
  simp [decode_bins, get_bin_table, bin_table_with, sample_rate, symbol_duration]

/-- Each symbol contributes exactly `sd` samples. -/
lemma symbol_wave_length {α : Type} [AddCommMonoid α] (sinw : ℚ → ℚ → α)
    (sr sd : ℕ) (freqs : List ℚ) : (symbol_wave sinw sr sd freqs).length = sd := by
  simp only [symbol_wave, List.length_map, List.length_range]

/-- Flattening a map whose images all have length `k` gives `len * k`
elements. -/
lemma length_flatten_map_const {β γ : Type} (f : β → List γ) (k : ℕ)
    (hf : ∀ b, (f b).length = k) : ∀ cs : List β, ((cs.map f).flatten).length = cs.length * k
  | [] => by simp
  | c :: cs => by
    simp only [List.map_cons, List.flatten_cons, List.length_append, hf c,
      length_flatten_map_const f k hf cs, List.length_cons, Nat.succ_mul]
    omega

/-- C3: for every input text (any Reed-Solomon collaborator, any mode, any
sample rate and symbol duration), `encode_text_to_signal` returns a
`rs_encoded_length` that is a multiple of 3, a `pad_len` in {0, 1, 2}, and
a signal of exactly `(rs_encoded_length / 3) * symbol_duration` samples —
one block of `symbol_duration` samples per 3 frame bytes. -/
theorem encode_frame_and_signal_length {α : Type} [AddCommMonoid α]
    (sinw : ℚ → ℚ → α) (rs : RSCodec) (text : String) (u : Bool) (sr sd : ℕ) :
    (encode_text_to_signal sinw rs text u sr sd).rs_encoded_length % 3 = 0
      ∧ (encode_text_to_signal sinw rs text u sr sd).pad_len < 3
      ∧ (encode_text_to_signal sinw rs text u sr sd).full_signal.length
          = (encode_text_to_signal sinw rs text u sr sd).rs_encoded_length / 3 * sd := by
  have hlen : (encode_text_to_signal sinw rs text u sr sd).rs_encoded_length
      = (rs.enc (utf8Bytes text)).length
        + (3 - (rs.enc (utf8Bytes text)).length % 3) % 3 := by
    simp [encode_text_to_signal]
  have hpad : (encode_text_to_signal sinw rs text u sr sd).pad_len
      = (3 - (rs.enc (utf8Bytes text)).length % 3) % 3 := by
    simp [encode_text_to_signal]
  have hsig : (encode_text_to_signal sinw rs text u sr sd).full_signal.length
      = (encode_text_to_signal sinw rs text u sr sd).rs_encoded_length / 3 * sd := by
    have hflat := length_flatten_map_const
      (fun c => symbol_wave sinw sr sd (chunk_freqs (get_freq_table u) c)) sd
      (fun c => symbol_wave_length sinw sr sd _)
      (chunks3 (rs.enc (utf8Bytes text)
        ++ List.replicate ((3 - (rs.enc (utf8Bytes text)).length % 3) % 3) 0))
    simp only [encode_text_to_signal, hflat, chunks3_length]
  refine ⟨?_, ?_, hsig⟩
  · rw [hlen]; omega
  · rw [hpad]; omega

/-- C8: `decode_signal_to_text` uses only the first
`(len(signal) / symbol_duration) * symbol_duration` samples of its input:
decoding a signal gives the same result as decoding its prefix truncated to
a whole number of symbols, with identical metadata and parameters. -/
theorem decode_drops_partial_symbol_tail {α : Type} (mag : List α → ℕ → ℚ)
    (rs : RSCodec) (signal : List α) (pad : ℕ) (rsl : Option ℕ) (u : Bool)
    (sr sd : ℕ) :
    decode_signal_to_text mag rs (signal.take (signal.length / sd * sd)) pad rsl u sr sd
      = decode_signal_to_text mag rs signal pad rsl u sr sd := by
  have hbuf : pre_rs_buffer mag (signal.take (signal.length / sd * sd)) pad rsl u sr sd
      = pre_rs_buffer mag signal pad rsl u sr sd := by
    have hlen : (signal.take (signal.length / sd * sd)).length = signal.length / sd * sd := by
      rw [List.length_take]
      exact min_eq_left (Nat.div_mul_le_self _ _)
    have hdiv : signal.length / sd * sd / sd = signal.length / sd := by
      rcases Nat.eq_zero_or_pos sd with h0 | hpos
      · subst h0; simp
      · exact Nat.mul_div_cancel _ hpos
    simp only [pre_rs_buffer, hlen, hdiv, splitBlocks_take]
  simp only [decode_signal_to_text, hbuf]

/-- The 16 candidate magnitudes of a band form a 16-entry list. -/
lemma candidate_mags_length {α : Type} (mag : List α → ℕ → ℚ) (bt : ℕ → ℕ → ℤ)
    (L : ℕ) (block : List α) (band : ℕ) :
    (candidate_mags mag bt L block band).length = 16 := by
  simp [candidate_mags, tones_per_nibble]

/-- Entry `n` of the candidate list is the guarded magnitude lookup. -/
lemma candidate_mags_getD {α : Type} (mag : List α → ℕ → ℚ) (bt : ℕ → ℕ → ℤ)
    (L : ℕ) (block : List α) (band n : ℕ) (hn : n < 16) :
    (candidate_mags mag bt L block band).getD n 0
      = if bt band n < (L : ℤ) then mag block (bt band n).toNat else 0 := by
  rw [candidate_mags]
  exact getD_range_map 0 tones_per_nibble _ n hn

/-- C5: inside `decode_signal_to_text`, for each band and block the
detected nibble is the index of the largest candidate magnitude, ties
broken by the lowest nibble index; a candidate whose bin lies at or beyond
the spectrum length contributes magnitude 0, and such a candidate is never
selected unless all 16 candidates of the band are out of range, in which
case nibble 0 is selected. `mag` is the nonnegative magnitude spectrum
(`np.abs` of the FFT). -/
theorem detected_nibble_is_first_max {α : Type} (mag : List α → ℕ → ℚ)
    (u : Bool) (sr sd : ℕ) (block : List α) (band : ℕ)
    (hband : band < 6) (hmag : ∀ i, 0 ≤ mag block i) :
    detect_nibble mag (decode_bins u sr sd) (rfft_len sd) block band < 16
    ∧ (∀ n, n < 16 →
        (candidate_mags mag (decode_bins u sr sd) (rfft_len sd) block band).getD n 0
          ≤ (candidate_mags mag (decode_bins u sr sd) (rfft_len sd) block band).getD
              (detect_nibble mag (decode_bins u sr sd) (rfft_len sd) block band) 0)
    ∧ (∀ n, n < detect_nibble mag (decode_bins u sr sd) (rfft_len sd) block band →
        (candidate_mags mag (decode_bins u sr sd) (rfft_len sd) block band).getD n 0
          < (candidate_mags mag (decode_bins u sr sd) (rfft_len sd) block band).getD
              (detect_nibble mag (decode_bins u sr sd) (rfft_len sd) block band) 0)
    ∧ (∀ n, n < 16 → ((rfft_len sd : ℤ) ≤ decode_bins u sr sd band n →
        (candidate_mags mag (decode_bins u sr sd) (rfft_len sd) block band).getD n 0 = 0))
    ∧ ((rfft_len sd : ℤ)
          ≤ decode_bins u sr sd band (detect_nibble mag (decode_bins u sr sd) (rfft_len sd) block band) →
        (∀ n, n < 16 → (rfft_len sd : ℤ) ≤ decode_bins u sr sd band n)
        ∧ detect_nibble mag (decode_bins u sr sd) (rfft_len sd) block band = 0) := by
  have hlen := candidate_mags_length mag (decode_bins u sr sd) (rfft_len sd) block band
  have hne : candidate_mags mag (decode_bins u sr sd) (rfft_len sd) block band ≠ [] := by
    intro h
    rw [h] at hlen
    simp at hlen
  have hd16 : detect_nibble mag (decode_bins u sr sd) (rfft_len sd) block band < 16 := by
    have := np_argmax_lt_length _ hne
    rw [hlen] at this
    exact this
  have hmax : ∀ n, n < 16 →
      (candidate_mags mag (decode_bins u sr sd) (rfft_len sd) block band).getD n 0
        ≤ (candidate_mags mag (decode_bins u sr sd) (rfft_len sd) block band).getD
            (detect_nibble mag (decode_bins u sr sd) (rfft_len sd) block band) 0 := by
    intro n hn
    exact np_argmax_is_max _ n (by rw [hlen]; exact hn)
  have hfirst : ∀ n, n < detect_nibble mag (decode_bins u sr sd) (rfft_len sd) block band →
      (candidate_mags mag (decode_bins u sr sd) (rfft_len sd) block band).getD n 0
        < (candidate_mags mag (decode_bins u sr sd) (rfft_len sd) block band).getD
            (detect_nibble mag (decode_bins u sr sd) (rfft_len sd) block band) 0 :=
    fun n hn => np_argmax_first _ n hn
  have hzero : ∀ n, n < 16 → ((rfft_len sd : ℤ) ≤ decode_bins u sr sd band n →
      (candidate_mags mag (decode_bins u sr sd) (rfft_len sd) block band).getD n 0 = 0) := by
    intro n hn hout
    rw [candidate_mags_getD mag _ _ block band n hn]
    exact if_neg (not_lt.mpr hout)
  have hnonneg : ∀ n, n < 16 →
      0 ≤ (candidate_mags mag (decode_bins u sr sd) (rfft_len sd) block band).getD n 0 := by
    intro n hn
    rw [candidate_mags_getD mag _ _ block band n hn]
    by_cases h : decode_bins u sr sd band n < ((rfft_len sd : ℕ) : ℤ)
    · rw [if_pos h]; exact hmag _
    · rw [if_neg h]
  refine ⟨hd16, hmax, hfirst, hzero, ?_⟩
  intro hout
  have hbin : ∀ n : ℕ, decode_bins u sr sd band n = (if u then 320 else 40) + 16 * band + n :=
    fun n => bin_table_formula u band n
  have hd0 : detect_nibble mag (decode_bins u sr sd) (rfft_len sd) block band = 0 := by
    by_contra hne0
    have h0lt : 0 < detect_nibble mag (decode_bins u sr sd) (rfft_len sd) block band :=
      Nat.pos_of_ne_zero hne0
    have hlt := hfirst 0 h0lt
    have hD0 := hzero _ hd16 hout
    rw [hD0] at hlt
    exact absurd hlt (not_lt.mpr (hnonneg 0 (by omega)))
  refine ⟨?_, hd0⟩
  intro n hn
  rw [hd0, hbin 0] at hout
  rw [hbin n]
  cases u <;> · simp only [if_true, if_false] at * ; omega

/-- All-zero magnitude spectrum over blocks of unit samples, used as a
concrete instance of the external FFT collaborator. -/
def magZero : List Unit → ℕ → ℚ := fun _ _ => 0

/-- C5 witness: band 2, the all-zero spectrum, default parameters. -/
theorem detected_nibble_is_first_max_witness :
    (2 < 6 ∧ ∀ i, 0 ≤ magZero [] i)
    ∧ (detect_nibble magZero (decode_bins false 48000 1024) (rfft_len 1024) [] 2 < 16
    ∧ (∀ n, n < 16 →
        (candidate_mags magZero (decode_bins false 48000 1024) (rfft_len 1024) [] 2).getD n 0
          ≤ (candidate_mags magZero (decode_bins false 48000 1024) (rfft_len 1024) [] 2).getD
              (detect_nibble magZero (decode_bins false 48000 1024) (rfft_len 1024) [] 2) 0)
    ∧ (∀ n, n < detect_nibble magZero (decode_bins false 48000 1024) (rfft_len 1024) [] 2 →
        (candidate_mags magZero (decode_bins false 48000 1024) (rfft_len 1024) [] 2).getD n 0
          < (candidate_mags magZero (decode_bins false 48000 1024) (rfft_len 1024) [] 2).getD
              (detect_nibble magZero (decode_bins false 48000 1024) (rfft_len 1024) [] 2) 0)
    ∧ (∀ n, n < 16 → ((rfft_len 1024 : ℤ) ≤ decode_bins false 48000 1024 2 n →
        (candidate_mags magZero (decode_bins false 48000 1024) (rfft_len 1024) [] 2).getD n 0 = 0))
    ∧ ((rfft_len 1024 : ℤ)
          ≤ decode_bins false 48000 1024 2
              (detect_nibble magZero (decode_bins false 48000 1024) (rfft_len 1024) [] 2) →
        (∀ n, n < 16 → (rfft_len 1024 : ℤ) ≤ decode_bins false 48000 1024 2 n)
        ∧ detect_nibble magZero (decode_bins false 48000 1024) (rfft_len 1024) [] 2 = 0)) :=
  ⟨⟨by omega, fun i => le_refl 0⟩,
    detected_nibble_is_first_max magZero false 48000 1024 [] 2 (by omega) (fun i => le_refl 0)⟩

/-- Every detected nibble is one of the 16 candidate indices. -/
lemma detect_nibble_lt_16 {α : Type} (mag : List α → ℕ → ℚ) (bt : ℕ → ℕ → ℤ)
    (L : ℕ) (block : List α) (band : ℕ) :
    detect_nibble mag bt L block band < 16 := by
  have hlen := candidate_mags_length mag bt L block band
  have hne : candidate_mags mag bt L block band ≠ [] := by
    intro h
    rw [h] at hlen
    simp at hlen
  have := np_argmax_lt_length _ hne
  rw [hlen] at this
  exact this

/-- Two nibbles pack into a byte below 256. -/
lemma packed_byte_lt_256 (x y : ℕ) (hx : x < 16) (hy : y < 16) :
    x <<< 4 ||| y < 256 := by
  have hx' : x <<< 4 < 2 ^ 8 := by
    rw [Nat.shiftLeft_eq]
    norm_num
    omega
  have hy' : y < 2 ^ 8 := by norm_num; omega
  have := Nat.or_lt_two_pow hx' hy'
  norm_num at this
  exact this

/-- Entries of a detected-nibble row read through `getD` are nibbles. -/
lemma detect_row_getD_lt_16 {α : Type} (mag : List α → ℕ → ℚ) (bt : ℕ → ℕ → ℤ)
    (L : ℕ) (block : List α) (j : ℕ) (hj : j < 6) :
    (detect_row mag bt L block).getD j 0 < 16 := by
  rw [detect_row, getD_range_map 0 parallel_tones _ j hj]
  exact detect_nibble_lt_16 mag bt L block j

/-- C10: every detected nibble lies in 0..15, hence every byte of the raw
reconstructed buffer lies in 0..255, and — before padding removal and
truncation — the buffer holds exactly `3 * (len(signal) / symbol_duration)`
bytes. -/
theorem decode_raw_buffer_invariants {α : Type} (mag : List α → ℕ → ℚ)
    (u : Bool) (sr sd : ℕ) (signal : List α) (block : List α)
    (hblock : block ∈ splitBlocks sd (signal.length / sd) signal)
    (j : ℕ) (hj : j < 6) (byte : ℕ)
    (hbyte : byte ∈ reconstruct mag (decode_bins u sr sd) (rfft_len sd)
        (splitBlocks sd (signal.length / sd) signal)) :
    (detect_row mag (decode_bins u sr sd) (rfft_len sd) block).getD j 0 < 16
      ∧ byte < 256
      ∧ (reconstruct mag (decode_bins u sr sd) (rfft_len sd)
            (splitBlocks sd (signal.length / sd) signal)).length
          = 3 * (signal.length / sd) := by
  refine ⟨detect_row_getD_lt_16 mag _ _ block j hj, ?_, ?_⟩
  · rw [reconstruct] at hbyte
    rw [List.mem_flatten] at hbyte
    obtain ⟨l, hl, hbl⟩ := hbyte
    rw [List.mem_map] at hl
    obtain ⟨blk, _, hblk⟩ := hl
    subst hblk
    have h0 := detect_row_getD_lt_16 mag (decode_bins u sr sd) (rfft_len sd) blk 0 (by omega)
    have h1 := detect_row_getD_lt_16 mag (decode_bins u sr sd) (rfft_len sd) blk 1 (by omega)
    have h2 := detect_row_getD_lt_16 mag (decode_bins u sr sd) (rfft_len sd) blk 2 (by omega)
    have h3 := detect_row_getD_lt_16 mag (decode_bins u sr sd) (rfft_len sd) blk 3 (by omega)
    have h4 := detect_row_getD_lt_16 mag (decode_bins u sr sd) (rfft_len sd) blk 4 (by omega)
    have h5 := detect_row_getD_lt_16 mag (decode_bins u sr sd) (rfft_len sd) blk 5 (by omega)
    simp only [row_bytes, List.mem_cons, List.not_mem_nil, or_false] at hbl
    rcases hbl with h | h | h <;>
      · subst h
        first
        | exact packed_byte_lt_256 _ _ h0 h1
        | exact packed_byte_lt_256 _ _ h2 h3
        | exact packed_byte_lt_256 _ _ h4 h5
  · rw [reconstruct, length_flatten_map_const
      (fun block => row_bytes (detect_row mag (decode_bins u sr sd) (rfft_len sd) block)) 3
      (fun blk => rfl), splitBlocks_length]
    omega

/-- C10 witness: single one-sample symbol, all-zero spectrum. -/
theorem decode_raw_buffer_invariants_witness :
    (([()] : List Unit) ∈ splitBlocks 1 (([()] : List Unit).length / 1) [()]
      ∧ 0 < 6
      ∧ (0 : ℕ) ∈ reconstruct magZero (decode_bins false 48000 1) (rfft_len 1)
          (splitBlocks 1 (([()] : List Unit).length / 1) [()]))
    ∧ ((detect_row magZero (decode_bins false 48000 1) (rfft_len 1) [()]).getD 0 0 < 16
      ∧ (0 : ℕ) < 256
      ∧ (reconstruct magZero (decode_bins false 48000 1) (rfft_len 1)
            (splitBlocks 1 (([()] : List Unit).length / 1) [()])).length
          = 3 * (([()] : List Unit).length / 1)) := by
  have hsplit : splitBlocks 1 (([()] : List Unit).length / 1) [()] = [[()]] := rfl
  have hrow : ∀ block : List Unit,
      detect_row magZero (decode_bins false 48000 1) (rfft_len 1) block
        = (List.range 6).map fun _ => 0 := by
    intro block
    rw [detect_row]
    simp only [parallel_tones]
    refine List.map_congr_left ?_
    intro band _
    rw [detect_nibble]
    have hc : candidate_mags magZero (decode_bins false 48000 1) (rfft_len 1) block band
        = (List.range 16).map fun _ => (0 : ℚ) := by
      rw [candidate_mags]
      simp [magZero, tones_per_nibble]
    rw [hc]
    decide
  have hrec : reconstruct magZero (decode_bins false 48000 1) (rfft_len 1)
      (splitBlocks 1 (([()] : List Unit).length / 1) [()]) = [0, 0, 0] := by
    rw [hsplit, reconstruct]
    simp only [List.map_cons, List.map_nil, List.flatten]
    rw [hrow [()]]
    rfl
  have hb : ([()] : List Unit) ∈ splitBlocks 1 (([()] : List Unit).length / 1) [()] := by
    rw [hsplit]; exact List.mem_singleton.mpr rfl
  have hbyte : (0 : ℕ) ∈ reconstruct magZero (decode_bins false 48000 1) (rfft_len 1)
      (splitBlocks 1 (([()] : List Unit).length / 1) [()]) := by
    rw [hrec]; simp
  exact ⟨⟨hb, by omega, hbyte⟩,
    decode_raw_buffer_invariants magZero false 48000 1 [()] [()] hb 0 (by omega) 0 hbyte⟩

/-- The Reed-Solomon collaborator in the state where decoding raises
`ReedSolomonError` on every buffer (an uncorrectable codeword). -/
def rsAlwaysFail : RSCodec := ⟨fun d => d, fun _ => none⟩

/-- A Reed-Solomon collaborator whose decode succeeds on every buffer. -/
def rsAlwaysOk : RSCodec := ⟨fun d => d, fun b => some b⟩

/-- C2 counterexample: a call whose Reed-Solomon decode fails returns the
very same plain value as a call whose Reed-Solomon decode succeeds — the
returned string carries no failure marker, so the caller cannot tell a
best-effort fallback from a verified decode. -/
theorem rs_failure_result_indistinguishable :
    rsAlwaysFail.dec (pre_rs_buffer magZero [()] 0 none false 48000 1) = none
    ∧ rsAlwaysOk.dec (pre_rs_buffer magZero [()] 0 none false 48000 1)
        = some (pre_rs_buffer magZero [()] 0 none false 48000 1)
    ∧ decode_signal_to_text magZero rsAlwaysFail [()] 0 none false 48000 1
        = decode_signal_to_text magZero rsAlwaysOk [()] 0 none false 48000 1 :=
  ⟨rfl, rfl, rfl⟩

/-- C2 amended: when the Reed-Solomon decode of the reconstructed buffer
fails, `decode_signal_to_text` does not abort — it catches the error and
returns the lossy UTF-8 decode of the raw, still parity-bearing buffer,
an ordinary string of the same type as a successful result; the failure is
signalled only by a printed message, not by the returned value. -/
theorem rs_failure_falls_back_to_raw_buffer {α : Type} (mag : List α → ℕ → ℚ)
    (rs : RSCodec) (signal : List α) (pad : ℕ) (rsl : Option ℕ) (u : Bool)
    (sr sd : ℕ)
    (hfail : rs.dec (pre_rs_buffer mag signal pad rsl u sr sd) = none) :
    decode_signal_to_text mag rs signal pad rsl u sr sd
      = utf8DecodeIgnore (pre_rs_buffer mag signal pad rsl u sr sd) := by
  rw [decode_signal_to_text, hfail]

/-- C2 witness: the always-failing Reed-Solomon collaborator. -/
theorem rs_failure_falls_back_to_raw_buffer_witness :
    rsAlwaysFail.dec (pre_rs_buffer magZero [()] 2 (some 1) true 48000 1) = none
    ∧ decode_signal_to_text magZero rsAlwaysFail [()] 2 (some 1) true 48000 1
        = utf8DecodeIgnore (pre_rs_buffer magZero [()] 2 (some 1) true 48000 1) :=
  ⟨rfl, rs_failure_falls_back_to_raw_buffer magZero rsAlwaysFail [()] 2 (some 1) true 48000 1 rfl⟩

end Pybberlink
